import Mathlib

/-!
Verification of the chunked extraction-and-merge pipeline of
protocol_synopsis_generator.py.

The embedding models Python values flowing through the core as a JSON-like
inductive type JVal:
  - Python str        -> JVal.vstr
  - Python int/float  -> JVal.vnum (modelled on Int; the merge and coercion
    logic only tests truthiness, so integral values are fully faithful)
  - Python list       -> JVal.vlist
  - Python dict       -> JVal.vdict, an association list; JSON objects
    produced by json.loads have unique keys, and the oracle responses follow
    the fixed schema key order, so structural equality of the association
    lists models Python dict equality here
  - Python None       -> JVal.vnull
Records (the dicts parsed_result, default_structure, base, new) are
association lists from field name to JVal.  Python dict assignment
base[key] = v replaces the value in place for a present key and appends a
new key at the end; lookupKey and updateKey model that.  CPython sets have
unspecified iteration order, so list(set(xs)) is modelled as List.dedup of
the concatenation; every property stated about that branch is
order-independent, exactly as the spec requires.  Text is modelled as
List Char so that character counts are list lengths.
-/

inductive JVal where
  | vstr : String → JVal
  | vnum : Int → JVal
  | vlist : List JVal → JVal
  | vdict : List (String × JVal) → JVal
  | vnull : JVal

open JVal

mutual

def decEqJVal : (a b : JVal) → Decidable (a = b)
  | vstr a, vstr b =>
      match decEq a b with
      | isTrue h => isTrue (by rw [h])
      | isFalse h => isFalse (by intro hh; cases hh; exact h rfl)
  | vnum a, vnum b =>
      match decEq a b with
      | isTrue h => isTrue (by rw [h])
      | isFalse h => isFalse (by intro hh; cases hh; exact h rfl)
  | vlist a, vlist b =>
      match decEqLJ a b with
      | isTrue h => isTrue (by rw [h])
      | isFalse h => isFalse (by intro hh; cases hh; exact h rfl)
  | vdict a, vdict b =>
      match decEqDJ a b with
      | isTrue h => isTrue (by rw [h])
      | isFalse h => isFalse (by intro hh; cases hh; exact h rfl)
  | vnull, vnull => isTrue rfl
  | vstr _, vnum _ => isFalse (fun h => JVal.noConfusion h)
  | vstr _, vlist _ => isFalse (fun h => JVal.noConfusion h)
  | vstr _, vdict _ => isFalse (fun h => JVal.noConfusion h)
  | vstr _, vnull => isFalse (fun h => JVal.noConfusion h)
  | vnum _, vstr _ => isFalse (fun h => JVal.noConfusion h)
  | vnum _, vlist _ => isFalse (fun h => JVal.noConfusion h)
  | vnum _, vdict _ => isFalse (fun h => JVal.noConfusion h)
  | vnum _, vnull => isFalse (fun h => JVal.noConfusion h)
  | vlist _, vstr _ => isFalse (fun h => JVal.noConfusion h)
  | vlist _, vnum _ => isFalse (fun h => JVal.noConfusion h)
  | vlist _, vdict _ => isFalse (fun h => JVal.noConfusion h)
  | vlist _, vnull => isFalse (fun h => JVal.noConfusion h)
  | vdict _, vstr _ => isFalse (fun h => JVal.noConfusion h)
  | vdict _, vnum _ => isFalse (fun h => JVal.noConfusion h)
  | vdict _, vlist _ => isFalse (fun h => JVal.noConfusion h)
  | vdict _, vnull => isFalse (fun h => JVal.noConfusion h)
  | vnull, vstr _ => isFalse (fun h => JVal.noConfusion h)
  | vnull, vnum _ => isFalse (fun h => JVal.noConfusion h)
  | vnull, vlist _ => isFalse (fun h => JVal.noConfusion h)
  | vnull, vdict _ => isFalse (fun h => JVal.noConfusion h)

def decEqLJ : (a b : List JVal) → Decidable (a = b)
  | [], [] => isTrue rfl
  | x :: xs, y :: ys =>
      match decEqJVal x y, decEqLJ xs ys with
      | isTrue h1, isTrue h2 => isTrue (by rw [h1, h2])
      | isFalse h1, _ => isFalse (by intro hh; cases hh; exact h1 rfl)
      | _, isFalse h2 => isFalse (by intro hh; cases hh; exact h2 rfl)
  | [], _ :: _ => isFalse (fun h => List.noConfusion h)
  | _ :: _, [] => isFalse (fun h => List.noConfusion h)

def decEqDJ : (a b : List (String × JVal)) → Decidable (a = b)
  | [], [] => isTrue rfl
  | (k, v) :: xs, (k', v') :: ys =>
      match decEq k k', decEqJVal v v', decEqDJ xs ys with
      | isTrue h1, isTrue h2, isTrue h3 => isTrue (by rw [h1, h2, h3])
      | isFalse h1, _, _ => isFalse (by intro hh; cases hh; exact h1 rfl)
      | _, isFalse h2, _ => isFalse (by intro hh; cases hh; exact h2 rfl)
      | _, _, isFalse h3 => isFalse (by intro hh; cases hh; exact h3 rfl)
  | [], _ :: _ => isFalse (fun h => List.noConfusion h)
  | _ :: _, [] => isFalse (fun h => List.noConfusion h)

end

instance : DecidableEq JVal := decEqJVal

/-- Python truthiness of the values that occur in the pipeline. -/
def truthy : JVal → Bool
  | vstr s => !(s == "")
  | vnum n => !(n == 0)
  | vlist l => !l.isEmpty
  | vdict d => !d.isEmpty
  | vnull => false

/-- isinstance(value, list). -/
def isList : JVal → Bool
  | vlist _ => true
  | _ => false

/-- isinstance(value, dict). -/
def isDict : JVal → Bool
  | vdict _ => true
  | _ => false

/-- A record: a Python dict from field name to value, as an association list. -/
abbrev RecordJ := List (String × JVal)

/-- base[key] read for a Python dict: value at the first matching key. -/
def lookupKey (k : String) : RecordJ → Option JVal
  | [] => none
  | (k', v) :: rest => if k' = k then some v else lookupKey k rest

/-- base[key] = v for a key already present: replace in place, keep position. -/
def updateKey (k : String) (v : JVal) : RecordJ → RecordJ
  | [] => []
  | (k', w) :: rest => if k' = k then (k', v) :: rest else (k', w) :: updateKey k v rest

example : lookupKey "a" [("a", vnum 1), ("b", vnum 2)] = some (vnum 1) := by decide
example : updateKey "b" vnull [("a", vnum 1), ("b", vnum 2)]
    = [("a", vnum 1), ("b", vnull)] := by decide

/-!
The schema-complete default record.  _merge_info (lines 316-357) and
_process_chunk (lines 241-282) spell out the same 39-field literal; the two
source literals are character-identical apart from the variable name, so one
definition serves both.
-/

def defaultRecord : RecordJ :=
  [("protocol_title", vstr ""),
   ("short_title", vstr ""),
   ("protocol_number", vstr ""),
   ("version_and_date", vstr ""),
   ("study_phase", vstr ""),
   ("indication", vstr ""),
   ("sponsor", vstr ""),
   ("background", vstr ""),
   ("mechanism_of_action", vstr ""),
   ("justification_for_study_design", vstr ""),
   ("primary_objectives", vlist []),
   ("secondary_objectives", vlist []),
   ("exploratory_objectives", vlist []),
   ("primary_endpoints", vlist []),
   ("secondary_endpoints", vlist []),
   ("exploratory_endpoints", vlist []),
   ("design", vstr ""),
   ("arms", vlist []),
   ("blinding", vstr ""),
   ("randomization", vstr ""),
   ("study_duration", vstr ""),
   ("target_population", vstr ""),
   ("sample_size", vnum 0),
   ("inclusion_criteria", vlist []),
   ("exclusion_criteria", vlist []),
   ("investigational_product", vstr ""),
   ("comparator", vstr ""),
   ("dosage_and_administration", vlist []),
   ("efficacy_assessments", vlist []),
   ("safety_assessments", vlist []),
   ("pharmacokinetic_assessments", vlist []),
   ("immunogenicity_markers", vlist []),
   ("sample_size_justification", vstr ""),
   ("statistical_analysis_plan", vstr ""),
   ("interim_analysis", vstr ""),
   ("ethical_considerations", vstr ""),
   ("data_monitoring", vstr ""),
   ("estimated_study_start_date", vstr ""),
   ("estimated_study_completion_date", vstr ""),
   ("follow_up_duration", vstr "")]

/-- The inner loop of the list-of-dicts branch of _merge_info (lines 368-370):
for new_item in value: if new_item not in base[key]: base[key].append(new_item).
Python `in` on a list tests equality against each element. -/
def mergeDictList (b : List JVal) : List JVal → List JVal
  | [] => b
  | x :: xs => if x ∈ b then mergeDictList b xs else mergeDictList (b ++ [x]) xs

/-- The per-key body of the merge loop of _merge_info (lines 362-377), given
that the key is already present in base with value b and the incoming value is
v; returns the new base[key].  The list(set(...)) of the scalar-list branch is
modelled as dedup of the concatenation (CPython set order is unspecified; all
stated properties of this branch are order-independent). -/
def mergeValue (b v : JVal) : JVal :=
  match v with
  | vlist l =>
      let b0 : List JVal := match b with | vlist bl => bl | _ => []
      match l with
      | [] => vlist b0
      | d :: rest =>
          if isDict d then vlist (mergeDictList b0 (d :: rest))
          else vlist ((b0 ++ (d :: rest)).dedup)
  | vstr s => if s ≠ "" ∧ truthy b = false then vstr s else b
  | vnum n => if n ≠ 0 ∧ truthy b = false then vnum n else b
  | vdict _ => b
  | vnull => b

/-- One iteration of the merge loop of _merge_info (lines 359-377): an absent
key is copied verbatim (dict assignment appends it at the end), a present key
is updated in place via mergeValue. -/
def mergeStep (b : RecordJ) (kv : String × JVal) : RecordJ :=
  match lookupKey kv.1 b with
  | none => b ++ [kv]
  | some bv => updateKey kv.1 (mergeValue bv kv.2) b

/-- The dict held by the local variable base when _merge_info returns: the
falsy-base seeding (lines 314-357) followed by the merge loop. -/
def mergeLocal (base new : RecordJ) : RecordJ :=
  new.foldl mergeStep (if base = [] then defaultRecord else base)

/-- _merge_info as observed by its caller.  The function returns None and
communicates through in-place mutation of the dict passed as base; when base
is falsy (empty) the seeding rebinds the local name base to a fresh dict, so
every subsequent mutation goes to that fresh dict and the dict held by the
caller is left unchanged.  When base is non-empty the caller sees the merge
loop applied to its dict. -/
def mergeInfo (base new : RecordJ) : RecordJ :=
  if base = [] then base else new.foldl mergeStep base

example : mergeInfo [("a", vstr "x")] [("a", vstr "y"), ("b", vnum 3)]
    = [("a", vstr "x"), ("b", vnum 3)] := by decide
example : mergeInfo [("a", vstr "")] [("a", vstr "y")] = [("a", vstr "y")] := by decide
example : mergeInfo [("k", vlist [vstr "A", vstr "B"])] [("k", vlist [vstr "B", vstr "C"])]
    = [("k", vlist [vstr "A", vstr "B", vstr "C"])] := by decide

/-- The array_fields list of _process_chunk (lines 285-291). -/
def arrayFields : List String :=
  ["primary_objectives", "secondary_objectives", "exploratory_objectives",
   "primary_endpoints", "secondary_endpoints", "exploratory_endpoints",
   "arms", "inclusion_criteria", "exclusion_criteria",
   "dosage_and_administration", "efficacy_assessments", "safety_assessments",
   "pharmacokinetic_assessments", "immunogenicity_markers"]

/-- The per-key coercion of _process_chunk (lines 294-301): a non-list value
at a declared array field is wrapped into a one-element list when truthy and
becomes the empty list otherwise; every other value is copied as-is. -/
def coerceField (k : String) (v : JVal) : JVal :=
  if k ∈ arrayFields ∧ isList v = false then
    (if truthy v then vlist [v] else vlist [])
  else v

/-- default_structure[key] = v: dict assignment, replacing in place a present
key and appending an absent one. -/
def setKey (d : RecordJ) (k : String) (v : JVal) : RecordJ :=
  match lookupKey k d with
  | none => d ++ [(k, v)]
  | some _ => updateKey k v d

/-- One iteration of the update loop of _process_chunk (lines 294-301). -/
def coerceStep (d : RecordJ) (kv : String × JVal) : RecordJ :=
  setKey d kv.1 (coerceField kv.1 kv.2)

/-- The post-decode part of _process_chunk (lines 238-303): start from the
schema-complete default_structure and fold the decoded object into it. -/
def processChunk (parsed : RecordJ) : RecordJ :=
  parsed.foldl coerceStep defaultRecord

/-- _process_chunk viewed at the decode boundary: the oracle response either
fails to decode (none: json.loads raises json.JSONDecodeError, which line 306
re-raises) or decodes to an object (some parsed). -/
def processChunkR (decoded : Option RecordJ) : Except String RecordJ :=
  match decoded with
  | none => Except.error "Failed to parse JSON response"
  | some parsed => Except.ok (processChunk parsed)

/-- The chunk-folding loop of generate_synopsis (lines 389-395): extracted_info
starts as None, the first chunk result seeds it, later results are merged via
_merge_info; any raised error aborts the whole run (lines 401-403 re-raise). -/
def generateSynopsisAux : Option RecordJ → List (Option RecordJ) → Except String RecordJ
  | none, [] => Except.error "TypeError"
  | some r, [] => Except.ok r
  | acc, d :: rest =>
      match processChunkR d with
      | Except.error e => Except.error e
      | Except.ok info =>
          match acc with
          | none => generateSynopsisAux (some info) rest
          | some r => generateSynopsisAux (some (mergeInfo r info)) rest

/-- generate_synopsis after PDF reading and chunking, as a function of the
per-chunk decode results. -/
def generateSynopsis (decoded : List (Option RecordJ)) : Except String RecordJ :=
  generateSynopsisAux none decoded

/-- The field kinds declared by the pydantic model ProtocolSynopsis
(lines 32-91). -/
inductive FieldKind where
  | strF | optStrF | numF | strListF | optStrListF | armListF | doseListF | strOrNumF
deriving DecidableEq

/-- The schema of ProtocolSynopsis (lines 32-91): field name and declared kind,
in declaration order. -/
def schemaFields : List (String × FieldKind) :=
  [("protocol_title", FieldKind.strF),
   ("short_title", FieldKind.strF),
   ("protocol_number", FieldKind.strF),
   ("version_and_date", FieldKind.strF),
   ("study_phase", FieldKind.strF),
   ("indication", FieldKind.strF),
   ("sponsor", FieldKind.strF),
   ("background", FieldKind.strF),
   ("mechanism_of_action", FieldKind.strF),
   ("justification_for_study_design", FieldKind.strF),
   ("primary_objectives", FieldKind.strListF),
   ("secondary_objectives", FieldKind.strListF),
   ("exploratory_objectives", FieldKind.optStrListF),
   ("primary_endpoints", FieldKind.strListF),
   ("secondary_endpoints", FieldKind.strListF),
   ("exploratory_endpoints", FieldKind.optStrListF),
   ("design", FieldKind.strF),
   ("arms", FieldKind.armListF),
   ("blinding", FieldKind.strF),
   ("randomization", FieldKind.strF),
   ("study_duration", FieldKind.strOrNumF),
   ("target_population", FieldKind.strF),
   ("sample_size", FieldKind.numF),
   ("inclusion_criteria", FieldKind.strListF),
   ("exclusion_criteria", FieldKind.strListF),
   ("investigational_product", FieldKind.strF),
   ("comparator", FieldKind.optStrF),
   ("dosage_and_administration", FieldKind.doseListF),
   ("efficacy_assessments", FieldKind.strListF),
   ("safety_assessments", FieldKind.strListF),
   ("pharmacokinetic_assessments", FieldKind.optStrListF),
   ("immunogenicity_markers", FieldKind.optStrListF),
   ("sample_size_justification", FieldKind.strF),
   ("statistical_analysis_plan", FieldKind.strF),
   ("interim_analysis", FieldKind.optStrF),
   ("ethical_considerations", FieldKind.strF),
   ("data_monitoring", FieldKind.strF),
   ("estimated_study_start_date", FieldKind.strF),
   ("estimated_study_completion_date", FieldKind.strF),
   ("follow_up_duration", FieldKind.strOrNumF)]

/-- The type-correct empty default for a declared field kind, as the system
prompt and the default tables prescribe: empty string for string-ish fields
(including the string-or-number unions, whose default literal is the empty
string), zero for the numeric field, the empty list for list fields. -/
def kindDefault : FieldKind → JVal
  | FieldKind.numF => vnum 0
  | FieldKind.strListF => vlist []
  | FieldKind.optStrListF => vlist []
  | FieldKind.armListF => vlist []
  | FieldKind.doseListF => vlist []
  | _ => vstr ""

/-!
The chunker _chunk_text (lines 115-138).  Text is a list of characters;
sentence splitting is Python str.split with the two-character separator
period-space, applied after replacing every newline by a space.
-/

/-- text.replace of newline by space (line 119). -/
def replaceNewlines (text : List Char) : List Char :=
  text.map (fun ch => if ch = '\n' then ' ' else ch)

/-- Python split on the separator period-space: non-overlapping matches are
consumed left to right; the result is never empty and an input with no
separator yields the one-element list of the whole input. -/
def splitDotSpace : List Char → List (List Char)
  | [] => [[]]
  | '.' :: ' ' :: rest => [] :: splitDotSpace rest
  | ch :: rest =>
      match splitDotSpace rest with
      | [] => [[ch]]
      | s :: ss => (ch :: s) :: ss

/-- The sentence list of line 119. -/
def sentencesOf (text : List Char) : List (List Char) :=
  splitDotSpace (replaceNewlines text)

/-- A closed chunk (lines 127 and 135): the sentences of the group re-joined
with period-space and terminated by a period. -/
def joinChunk (g : List (List Char)) : List Char :=
  List.intercalate ['.', ' '] g ++ ['.']

/-- The accumulation loop of _chunk_text (lines 124-135), returning the groups
of sentences that become chunks: cur is current_chunk, curSize is current_size
(the running sum of sentence lengths, ignoring separators), and the final
non-empty group is flushed after the loop. -/
def chunkAux (maxSize : Nat) (cur : List (List Char)) (curSize : Nat) :
    List (List Char) → List (List (List Char))
  | [] => if cur = [] then [] else [cur]
  | s :: rest =>
      if maxSize < curSize + s.length then
        cur :: chunkAux maxSize [s] s.length rest
      else
        chunkAux maxSize (cur ++ [s]) (curSize + s.length) rest

/-- The sentence groups produced by _chunk_text. -/
def chunkGroups (maxSize : Nat) (sentences : List (List Char)) :
    List (List (List Char)) :=
  chunkAux maxSize [] 0 sentences

/-- _chunk_text (lines 115-138). -/
def chunkText (text : List Char) (maxSize : Nat) : List (List Char) :=
  (chunkGroups maxSize (sentencesOf text)).map joinChunk

example : sentencesOf ("ab. cd".toList) = ["ab".toList, "cd".toList] := by decide
example : chunkText ("ab. cd".toList) 5 = ["ab. cd.".toList] := by decide
example : chunkText ("ab. cd".toList) 3 = ["ab.".toList, "cd.".toList] := by decide
example : chunkText [] 7 = [['.']] := by decide
example : chunkText ("abcdefgh. xy".toList) 4 = [".".toList, "abcdefgh.".toList, "xy.".toList] := by
  decide

/-! Association-list lemmas about lookupKey, updateKey and setKey. -/

theorem lookupKey_append_left {k : String} {b : RecordJ} {w : JVal} (l : RecordJ)
    (h : lookupKey k b = some w) : lookupKey k (b ++ l) = some w := by
  induction b with
  | nil => simp [lookupKey] at h
  | cons hd tl ih =>
    obtain ⟨k', v⟩ := hd
    simp only [lookupKey, List.cons_append] at h ⊢
    by_cases hk : k' = k
    · rwa [if_pos hk] at h ⊢
    · rw [if_neg hk] at h ⊢
      exact ih h

theorem lookupKey_append_right {k : String} {b : RecordJ} (l : RecordJ)
    (h : lookupKey k b = none) : lookupKey k (b ++ l) = lookupKey k l := by
  induction b with
  | nil => simp
  | cons hd tl ih =>
    obtain ⟨k', v⟩ := hd
    simp only [lookupKey, List.cons_append] at h ⊢
    by_cases hk : k' = k
    · rw [if_pos hk] at h
      cases h
    · rw [if_neg hk] at h ⊢
      exact ih h

theorem lookupKey_updateKey_ne {k k' : String} (hne : k' ≠ k) (v : JVal) (b : RecordJ) :
    lookupKey k (updateKey k' v b) = lookupKey k b := by
  induction b with
  | nil => rfl
  | cons hd tl ih =>
    obtain ⟨k₀, w⟩ := hd
    by_cases hk : k₀ = k'
    · subst hk
      simp only [updateKey, if_pos rfl, lookupKey, if_neg hne]
    · simp only [updateKey, if_neg hk, lookupKey]
      by_cases hk2 : k₀ = k
      · rw [if_pos hk2, if_pos hk2]
      · rw [if_neg hk2, if_neg hk2]
        exact ih

theorem lookupKey_updateKey_self {k : String} {b : RecordJ} {w : JVal}
    (h : lookupKey k b = some w) (v : JVal) :
    lookupKey k (updateKey k v b) = some v := by
  induction b with
  | nil => simp [lookupKey] at h
  | cons hd tl ih =>
    obtain ⟨k₀, w₀⟩ := hd
    by_cases hk : k₀ = k
    · simp only [updateKey, if_pos hk, lookupKey, if_pos hk]
    · simp only [lookupKey, if_neg hk] at h
      simp only [updateKey, if_neg hk, lookupKey, if_neg hk]
      exact ih h

theorem updateKey_lookup_self {k : String} {b : RecordJ} {w : JVal}
    (h : lookupKey k b = some w) : updateKey k w b = b := by
  induction b with
  | nil => rfl
  | cons hd tl ih =>
    obtain ⟨k₀, w₀⟩ := hd
    by_cases hk : k₀ = k
    · simp only [lookupKey, if_pos hk] at h
      cases h
      simp only [updateKey, if_pos hk]
    · simp only [lookupKey, if_neg hk] at h
      simp only [updateKey, if_neg hk]
      rw [ih h]

theorem lookupKey_ne_nil {k : String} {b : RecordJ} {w : JVal}
    (h : lookupKey k b = some w) : b ≠ [] := by
  intro hb
  subst hb
  simp [lookupKey] at h

theorem lookupKey_setKey_self (d : RecordJ) (k : String) (v : JVal) :
    lookupKey k (setKey d k v) = some v := by
  unfold setKey
  cases hc : lookupKey k d with
  | none => rw [lookupKey_append_right _ hc]; simp [lookupKey]
  | some w => exact lookupKey_updateKey_self hc v

theorem lookupKey_setKey_ne {k k' : String} (hne : k' ≠ k) (d : RecordJ) (v : JVal) :
    lookupKey k (setKey d k' v) = lookupKey k d := by
  unfold setKey
  cases hc : lookupKey k' d with
  | none =>
    cases hk : lookupKey k d with
    | none => rw [lookupKey_append_right _ hk]; simp [lookupKey, if_neg hne]
    | some w => rw [lookupKey_append_left _ hk]
  | some w => exact lookupKey_updateKey_ne hne v d

/-! Lemmas about the list-of-sub-records merge loop. -/

theorem mergeDictList_prefix (l : List JVal) : ∀ b, b <+: mergeDictList b l := by
  induction l with
  | nil => intro b; exact List.prefix_refl b
  | cons y ys ih =>
    intro b
    simp only [mergeDictList]
    by_cases hy : y ∈ b
    · rw [if_pos hy]
      exact ih b
    · rw [if_neg hy]
      exact List.IsPrefix.trans (List.prefix_append b [y]) (ih (b ++ [y]))

theorem mem_mergeDictList (l : List JVal) :
    ∀ b x, x ∈ mergeDictList b l ↔ x ∈ b ∨ x ∈ l := by
  induction l with
  | nil => intro b x; simp [mergeDictList]
  | cons y ys ih =>
    intro b x
    simp only [mergeDictList]
    by_cases hy : y ∈ b
    · rw [if_pos hy, ih]
      simp only [List.mem_cons]
      constructor
      · rintro (h | h)
        · exact Or.inl h
        · exact Or.inr (Or.inr h)
      · rintro (h | rfl | h)
        · exact Or.inl h
        · exact Or.inl hy
        · exact Or.inr h
    · rw [if_neg hy, ih]
      simp only [List.mem_append, List.mem_cons, List.not_mem_nil, or_false]
      constructor
      · rintro ((h | rfl) | h)
        · exact Or.inl h
        · exact Or.inr (Or.inl rfl)
        · exact Or.inr (Or.inr h)
      · rintro (h | rfl | h)
        · exact Or.inl (Or.inl h)
        · exact Or.inl (Or.inr rfl)
        · exact Or.inr h

theorem count_mergeDictList_le_one (l : List JVal) :
    ∀ b x, List.count x b ≤ 1 → List.count x (mergeDictList b l) ≤ 1 := by
  induction l with
  | nil => intro b x h; exact h
  | cons y ys ih =>
    intro b x h
    simp only [mergeDictList]
    by_cases hy : y ∈ b
    · rw [if_pos hy]
      exact ih b x h
    · rw [if_neg hy]
      apply ih
      rw [List.count_append]
      by_cases hxy : x = y
      · subst hxy
        have h0 : List.count x b = 0 := List.count_eq_zero.mpr hy
        simp [h0]
      · have h0 : List.count x [y] = 0 := by
          simp [List.count_cons, hxy]
        omega

/-! Lemmas about the per-key merge body. -/

theorem mergeValue_list_mem {bl : List JVal} {x : JVal} (hx : x ∈ bl) (v : JVal) :
    ∃ rl, mergeValue (vlist bl) v = vlist rl ∧ x ∈ rl := by
  have hbl : bl.isEmpty = false := by
    cases bl with
    | nil => cases hx
    | cons a l => rfl
  cases v with
  | vstr s =>
    refine ⟨bl, ?_, hx⟩
    simp [mergeValue, truthy, hbl]
  | vnum n =>
    refine ⟨bl, ?_, hx⟩
    simp [mergeValue, truthy, hbl]
  | vnull => exact ⟨bl, rfl, hx⟩
  | vdict d => exact ⟨bl, rfl, hx⟩
  | vlist l =>
    cases l with
    | nil => exact ⟨bl, rfl, hx⟩
    | cons d rest =>
      by_cases hd : isDict d = true
      · refine ⟨mergeDictList bl (d :: rest), ?_, ?_⟩
        · simp [mergeValue, hd]
        · exact (mem_mergeDictList _ bl x).mpr (Or.inl hx)
      · refine ⟨(bl ++ d :: rest).dedup, ?_, ?_⟩
        · simp only [mergeValue]
          rw [if_neg (by simpa using hd)]
        · rw [List.mem_dedup]
          exact List.mem_append_left _ hx

theorem mergeValue_truthy_of_notList {b v : JVal} (hb : truthy b = true)
    (hv : isList v = false) : mergeValue b v = b := by
  cases v with
  | vstr s => simp [mergeValue, hb]
  | vnum n => simp [mergeValue, hb]
  | vlist l => simp [isList] at hv
  | vdict d => rfl
  | vnull => rfl

theorem mergeValue_fill_str {b : JVal} {s : String} (hb : truthy b = false)
    (hs : s ≠ "") : mergeValue b (vstr s) = vstr s := by
  simp [mergeValue, hb, hs]

theorem mergeValue_fill_num {b : JVal} {n : Int} (hb : truthy b = false)
    (hn : n ≠ 0) : mergeValue b (vnum n) = vnum n := by
  simp [mergeValue, hb, hn]

/-! Lemmas about one merge-loop iteration and the whole merge fold. -/

theorem lookupKey_mergeStep_ne {k : String} {b : RecordJ} (kv : String × JVal)
    (hne : kv.1 ≠ k) : lookupKey k (mergeStep b kv) = lookupKey k b := by
  obtain ⟨k', v⟩ := kv
  unfold mergeStep
  cases hc : lookupKey k' b with
  | none =>
    cases hk : lookupKey k b with
    | none => rw [lookupKey_append_right _ hk]; simp [lookupKey, if_neg hne]
    | some w => rw [lookupKey_append_left _ hk]
  | some w => exact lookupKey_updateKey_ne hne _ b

theorem lookupKey_mergeStep_self {k : String} {b : RecordJ} {bv : JVal} (v : JVal)
    (h : lookupKey k b = some bv) :
    lookupKey k (mergeStep b (k, v)) = some (mergeValue bv v) := by
  unfold mergeStep
  rw [h]
  exact lookupKey_updateKey_self h _

theorem foldl_mergeStep_keeps_mem (new : RecordJ) :
    ∀ b k rl x, lookupKey k b = some (vlist rl) → x ∈ rl →
      ∃ rl2, lookupKey k (new.foldl mergeStep b) = some (vlist rl2) ∧ x ∈ rl2 := by
  induction new with
  | nil => exact fun b k rl x h hx => ⟨rl, h, hx⟩
  | cons kv rest ih =>
    intro b k rl x h hx
    rw [List.foldl_cons]
    by_cases hk : kv.1 = k
    · obtain ⟨k', v⟩ := kv
      cases hk
      obtain ⟨rl1, hmv, hx1⟩ := mergeValue_list_mem hx v
      have hstep : lookupKey k' (mergeStep b (k', v)) = some (vlist rl1) := by
        rw [lookupKey_mergeStep_self v h, hmv]
      exact ih _ _ _ _ hstep hx1
    · have hstep : lookupKey k (mergeStep b kv) = some (vlist rl) :=
        (lookupKey_mergeStep_ne kv hk).trans h
      exact ih _ _ _ _ hstep hx

theorem foldl_mergeStep_keeps_truthy (new : RecordJ) :
    ∀ b k bv, lookupKey k b = some bv → truthy bv = true →
      (∀ v, (k, v) ∈ new → isList v = false) →
      lookupKey k (new.foldl mergeStep b) = some bv := by
  induction new with
  | nil => exact fun b k bv h _ _ => h
  | cons kv rest ih =>
    intro b k bv h htr hnl
    rw [List.foldl_cons]
    by_cases hk : kv.1 = k
    · obtain ⟨k', v⟩ := kv
      cases hk
      have hv : isList v = false := hnl v (List.mem_cons_self _ _)
      have hstep : lookupKey k' (mergeStep b (k', v)) = some bv := by
        rw [lookupKey_mergeStep_self v h, mergeValue_truthy_of_notList htr hv]
      exact ih _ _ _ hstep htr (fun v hv2 => hnl v (List.mem_cons_of_mem _ hv2))
    · have hstep : lookupKey k (mergeStep b kv) = some bv :=
        (lookupKey_mergeStep_ne kv hk).trans h
      exact ih _ _ _ hstep htr (fun v hv2 => hnl v (List.mem_cons_of_mem _ hv2))

theorem mergeInfo_of_ne_nil {base : RecordJ} (hb : base ≠ []) (new : RecordJ) :
    mergeInfo base new = new.foldl mergeStep base := by
  unfold mergeInfo
  rw [if_neg hb]

/-! Lemmas about the extractor fold. -/

theorem foldl_coerceStep_ne (l : RecordJ) :
    ∀ d k, (∀ kv, kv ∈ l → kv.1 ≠ k) →
      lookupKey k (l.foldl coerceStep d) = lookupKey k d := by
  induction l with
  | nil => exact fun d k _ => rfl
  | cons kv rest ih =>
    intro d k hne
    rw [List.foldl_cons]
    rw [ih _ _ (fun kv2 h2 => hne kv2 (List.mem_cons_of_mem _ h2))]
    exact lookupKey_setKey_ne (hne kv (List.mem_cons_self _ _)) d _

/-! Lemmas about the chunker. -/

theorem splitDotSpace_ne_nil (l : List Char) : splitDotSpace l ≠ [] := by
  rw [splitDotSpace.eq_def]
  split
  · simp
  · simp
  · split <;> simp

theorem chunkAux_ne_nil (sentences : List (List Char)) :
    ∀ cur curSize maxSize, cur ≠ [] ∨ sentences ≠ [] →
      chunkAux maxSize cur curSize sentences ≠ [] := by
  induction sentences with
  | nil =>
    intro cur curSize maxSize h
    rcases h with h | h
    · simp [chunkAux, h]
    · exact absurd rfl h
  | cons s rest ih =>
    intro cur curSize maxSize _
    simp only [chunkAux]
    by_cases hc : maxSize < curSize + s.length
    · rw [if_pos hc]
      simp
    · rw [if_neg hc]
      apply ih
      left
      simp

/-- The invariant a chunk group satisfies: the total sentence length fits the
budget, or the group is one single oversized sentence. -/
def GroupOk (maxSize : Nat) (g : List (List Char)) : Prop :=
  (g.map List.length).sum ≤ maxSize ∨ ∃ s, g = [s] ∧ maxSize < s.length

theorem chunkAux_bound (sentences : List (List Char)) :
    ∀ cur curSize maxSize, curSize = (cur.map List.length).sum →
      GroupOk maxSize cur →
      ∀ g ∈ chunkAux maxSize cur curSize sentences, GroupOk maxSize g := by
  induction sentences with
  | nil =>
    intro cur curSize maxSize _ hok g hg
    simp only [chunkAux] at hg
    by_cases hc : cur = []
    · rw [if_pos hc] at hg
      cases hg
    · rw [if_neg hc] at hg
      rcases List.mem_singleton.mp hg with rfl
      exact hok
  | cons s rest ih =>
    intro cur curSize maxSize hsz hok g hg
    simp only [chunkAux] at hg
    by_cases hc : maxSize < curSize + s.length
    · rw [if_pos hc] at hg
      rcases List.mem_cons.mp hg with rfl | hg2
      · exact hok
      · refine ih [s] s.length maxSize (by simp) ?_ g hg2
        by_cases hs : s.length ≤ maxSize
        · left
          simpa using hs
        · right
          exact ⟨s, rfl, not_le.mp hs⟩
    · rw [if_neg hc] at hg
      have hs2 : ((cur ++ [s]).map List.length).sum = curSize + s.length := by
        simp [hsz]
      refine ih (cur ++ [s]) (curSize + s.length) maxSize hs2.symm ?_ g hg
      left
      rw [hs2]
      omega

theorem joinChunk_getLast (g : List (List Char)) : (joinChunk g).getLast? = some '.' := by
  unfold joinChunk
  simp

theorem chunkText_nil_eq (maxSize : Nat) : chunkText [] maxSize = [['.']] := by
  simp only [chunkText, chunkGroups, sentencesOf, replaceNewlines, splitDotSpace, chunkAux,
    joinChunk, List.map_nil, List.length_nil, Nat.add_zero, Nat.not_lt_zero, if_false,
    List.map_cons]
  rw [if_neg (by simp)]
  decide

/-- C10: for every input text and positive max_chunk_size, _chunk_text returns
a non-empty list of chunks, every chunk ends with the period character, and the
empty input yields exactly the one-element list containing the single-character
chunk consisting of a period. -/
theorem chunkText_nonempty_dot (text : List Char) (maxSize : Nat) (_hpos : 0 < maxSize) :
    chunkText text maxSize ≠ [] ∧
    (∀ c ∈ chunkText text maxSize, c.getLast? = some '.') ∧
    chunkText [] maxSize = [['.']] := by
  refine ⟨?_, ?_, chunkText_nil_eq maxSize⟩
  · unfold chunkText chunkGroups
    intro h
    exact chunkAux_ne_nil _ [] 0 maxSize (Or.inr (splitDotSpace_ne_nil _))
      (List.map_eq_nil_iff.mp h)
  · intro c hc
    unfold chunkText at hc
    obtain ⟨g, _, rfl⟩ := List.mem_map.mp hc
    exact joinChunk_getLast g

theorem chunkText_nonempty_dot_witness :
    0 < 3 ∧
      (chunkText ("hi there. ok".toList) 3 ≠ [] ∧
        (∀ c ∈ chunkText ("hi there. ok".toList) 3, c.getLast? = some '.') ∧
        chunkText [] 3 = [['.']]) :=
  ⟨by decide, chunkText_nonempty_dot ("hi there. ok".toList) 3 (by decide)⟩

/-- C3 counterexample: with max_chunk_size 5 and the text "ab. cd", both
sentences have length 2, none exceeds the limit, yet the single produced chunk
"ab. cd." has 7 characters, because _chunk_text tracks only the sum of the bare
sentence lengths and ignores the separator and trailing-period characters it
re-inserts.  This falsifies the claim that a chunk exceeds max_chunk_size only
when it is a single oversized sentence. -/
theorem chunkText_oversize_cex :
    chunkText ("ab. cd".toList) 5 = ["ab. cd.".toList] ∧
    ("ab. cd.".toList).length = 7 ∧
    sentencesOf ("ab. cd".toList) = ["ab".toList, "cd".toList] ∧
    ("ab".toList).length ≤ 5 ∧ ("cd".toList).length ≤ 5 := by decide

/-- C3 amended: every chunk produced by _chunk_text is a group of sentences
whose TOTAL BARE LENGTH (the sum of the sentence lengths, not counting the
period-space separators and the trailing period that the chunk string adds) is
at most max_chunk_size, except a group consisting of a single sentence whose
length alone exceeds the limit; the chunk string itself may exceed
max_chunk_size by the re-inserted separator characters. -/
theorem chunkText_group_size_bound (text : List Char) (maxSize : Nat) (c : List Char)
    (hc : c ∈ chunkText text maxSize) :
    ∃ g ∈ chunkGroups maxSize (sentencesOf text), c = joinChunk g ∧
      ((g.map List.length).sum ≤ maxSize ∨ ∃ s, g = [s] ∧ maxSize < s.length) := by
  unfold chunkText at hc
  obtain ⟨g, hg, rfl⟩ := List.mem_map.mp hc
  refine ⟨g, hg, rfl, ?_⟩
  have hok : GroupOk maxSize g :=
    chunkAux_bound (sentencesOf text) [] 0 maxSize (by simp) (Or.inl (by simp)) g hg
  exact hok

theorem chunkText_group_size_bound_witness :
    ∃ g ∈ chunkGroups 5 (sentencesOf ("ab. cd".toList)), "ab. cd.".toList = joinChunk g ∧
      ((g.map List.length).sum ≤ 5 ∨ ∃ s, g = [s] ∧ 5 < s.length) :=
  chunkText_group_size_bound ("ab. cd".toList) 5 ("ab. cd.".toList) (by decide)

/-- C1 counterexample: _merge_info can SHRINK a list field.  With the
accumulated primary_objectives list containing the same string twice (as a
first chunk extraction may well produce) and an incoming singleton list,
the union branch deduplicates the accumulated duplicates away and the
length drops from 2 to 1. -/
theorem mergeInfo_list_shrinks_cex :
    lookupKey "primary_objectives"
        [("primary_objectives", vlist [vstr "A", vstr "A"])]
      = some (vlist [vstr "A", vstr "A"]) ∧
    lookupKey "primary_objectives"
        (mergeInfo [("primary_objectives", vlist [vstr "A", vstr "A"])]
          [("primary_objectives", vlist [vstr "A"])])
      = some (vlist [vstr "A"]) ∧
    ([vstr "A"] : List JVal).length < ([vstr "A", vstr "A"] : List JVal).length := by
  decide

/-- C1 amended: _merge_info never loses ELEMENTS of a list field: every element
of the accumulated list is still an element of the list after the merge.  The
LENGTH itself can decrease, but only because the scalar-list union branch
removes exact duplicates already present in the accumulated list. -/
theorem mergeInfo_list_elements_preserved (base new : RecordJ) (k : String)
    (bl : List JVal) (x : JVal) (hb : lookupKey k base = some (vlist bl))
    (hx : x ∈ bl) :
    ∃ rl, lookupKey k (mergeInfo base new) = some (vlist rl) ∧ x ∈ rl := by
  rw [mergeInfo_of_ne_nil (lookupKey_ne_nil hb) new]
  exact foldl_mergeStep_keeps_mem new base k bl x hb hx

theorem mergeInfo_list_elements_preserved_witness :
    ∃ rl, lookupKey "inclusion_criteria"
        (mergeInfo [("inclusion_criteria", vlist [vstr "A", vstr "A"])]
          [("inclusion_criteria", vlist [vstr "A"])])
      = some (vlist rl) ∧ vstr "A" ∈ rl :=
  mergeInfo_list_elements_preserved _ _ "inclusion_criteria"
    [vstr "A", vstr "A"] (vstr "A") (by decide) (by decide)

/-! Helpers for the fill-once idempotence argument. -/

theorem updateKey_ne_nil {b : RecordJ} (hb : b ≠ []) (k : String) (v : JVal) :
    updateKey k v b ≠ [] := by
  cases b with
  | nil => exact absurd rfl hb
  | cons hd tl =>
    obtain ⟨k₀, w⟩ := hd
    simp only [updateKey]
    split <;> simp

theorem mergeStep_ne_nil {b : RecordJ} (hb : b ≠ []) (kv : String × JVal) :
    mergeStep b kv ≠ [] := by
  unfold mergeStep
  cases lookupKey kv.1 b with
  | none => simp
  | some bv => exact updateKey_ne_nil hb _ _

theorem mergeStep_scalar_idem {base : RecordJ} {k : String} {v : JVal}
    (hnl : isList v = false) (htv : truthy v = true)
    (hfill : ∀ bv, truthy bv = false → mergeValue bv v = v) :
    mergeStep (mergeStep base (k, v)) (k, v) = mergeStep base (k, v) := by
  cases hc : lookupKey k base with
  | none =>
    have hr : mergeStep base (k, v) = base ++ [(k, v)] := by
      unfold mergeStep
      rw [hc]
    have hlr : lookupKey k (base ++ [(k, v)]) = some v := by
      rw [lookupKey_append_right _ hc]
      simp [lookupKey]
    rw [hr]
    unfold mergeStep
    rw [hlr]
    simp only
    rw [mergeValue_truthy_of_notList htv hnl, updateKey_lookup_self hlr]
  | some bv =>
    have hr : mergeStep base (k, v) = updateKey k (mergeValue bv v) base := by
      unfold mergeStep
      rw [hc]
    have hw : truthy (mergeValue bv v) = true := by
      by_cases ht : truthy bv = true
      · rw [mergeValue_truthy_of_notList ht hnl]
        exact ht
      · rw [hfill bv (by revert ht; cases truthy bv <;> simp)]
        exact htv
    have hlr : lookupKey k (updateKey k (mergeValue bv v) base) = some (mergeValue bv v) :=
      lookupKey_updateKey_self hc _
    rw [hr]
    unfold mergeStep
    rw [hlr]
    simp only
    rw [mergeValue_truthy_of_notList hw hnl, updateKey_lookup_self hlr]

/-- C2: _merge_info is fill-once on scalar fields.  A truthy accumulated value
is never overwritten by non-list incoming values; a falsy accumulated value is
overwritten by a non-empty incoming string or a non-zero incoming number; and
merging the same non-empty string or non-zero number twice gives the same
record as merging it once. -/
theorem mergeInfo_fill_once :
    (∀ base new k bv, lookupKey k base = some bv → truthy bv = true →
        (∀ v, (k, v) ∈ new → isList v = false) →
        lookupKey k (mergeInfo base new) = some bv) ∧
    (∀ base k bv s, lookupKey k base = some bv → truthy bv = false → s ≠ "" →
        lookupKey k (mergeInfo base [(k, vstr s)]) = some (vstr s)) ∧
    (∀ base k bv n, lookupKey k base = some bv → truthy bv = false → n ≠ 0 →
        lookupKey k (mergeInfo base [(k, vnum n)]) = some (vnum n)) ∧
    (∀ base k s, s ≠ "" →
        mergeInfo (mergeInfo base [(k, vstr s)]) [(k, vstr s)]
          = mergeInfo base [(k, vstr s)]) ∧
    (∀ base k n, n ≠ 0 →
        mergeInfo (mergeInfo base [(k, vnum n)]) [(k, vnum n)]
          = mergeInfo base [(k, vnum n)]) := by
  have hstr : ∀ (s : String), s ≠ "" → truthy (vstr s) = true := by
    intro s hs
    simp [truthy, hs]
  have hnum : ∀ (n : Int), n ≠ 0 → truthy (vnum n) = true := by
    intro n hn
    simp [truthy, hn]
  refine ⟨?_, ?_, ?_, ?_, ?_⟩
  · intro base new k bv h htr hnl
    rw [mergeInfo_of_ne_nil (lookupKey_ne_nil h) new]
    exact foldl_mergeStep_keeps_truthy new base k bv h htr hnl
  · intro base k bv s h hfalsy hs
    rw [mergeInfo_of_ne_nil (lookupKey_ne_nil h)]
    simp only [List.foldl_cons, List.foldl_nil]
    rw [lookupKey_mergeStep_self _ h, mergeValue_fill_str hfalsy hs]
  · intro base k bv n h hfalsy hn
    rw [mergeInfo_of_ne_nil (lookupKey_ne_nil h)]
    simp only [List.foldl_cons, List.foldl_nil]
    rw [lookupKey_mergeStep_self _ h, mergeValue_fill_num hfalsy hn]
  · intro base k s hs
    by_cases hb : base = []
    · subst hb
      simp [mergeInfo]
    · have hrne : mergeStep base (k, vstr s) ≠ [] := mergeStep_ne_nil hb _
      rw [mergeInfo_of_ne_nil hb, mergeInfo_of_ne_nil (by simpa using hrne)]
      simp only [List.foldl_cons, List.foldl_nil]
      exact mergeStep_scalar_idem rfl (hstr s hs)
        (fun bv hbv => mergeValue_fill_str hbv hs)
  · intro base k n hn
    by_cases hb : base = []
    · subst hb
      simp [mergeInfo]
    · have hrne : mergeStep base (k, vnum n) ≠ [] := mergeStep_ne_nil hb _
      rw [mergeInfo_of_ne_nil hb, mergeInfo_of_ne_nil (by simpa using hrne)]
      simp only [List.foldl_cons, List.foldl_nil]
      exact mergeStep_scalar_idem rfl (hnum n hn)
        (fun bv hbv => mergeValue_fill_num hbv hn)

theorem mergeInfo_fill_once_witness :
    lookupKey "sponsor" (mergeInfo [("sponsor", vstr "X")] [("sponsor", vstr "Y")])
      = some (vstr "X") ∧
    lookupKey "sponsor" (mergeInfo [("sponsor", vstr "")] [("sponsor", vstr "Y")])
      = some (vstr "Y") ∧
    lookupKey "sample_size" (mergeInfo [("sample_size", vnum 0)] [("sample_size", vnum 7)])
      = some (vnum 7) ∧
    mergeInfo (mergeInfo [("sponsor", vstr "")] [("sponsor", vstr "Y")]) [("sponsor", vstr "Y")]
      = mergeInfo [("sponsor", vstr "")] [("sponsor", vstr "Y")] ∧
    mergeInfo (mergeInfo [("sample_size", vnum 0)] [("sample_size", vnum 7)])
        [("sample_size", vnum 7)]
      = mergeInfo [("sample_size", vnum 0)] [("sample_size", vnum 7)] :=
  ⟨mergeInfo_fill_once.1 [("sponsor", vstr "X")] [("sponsor", vstr "Y")] "sponsor"
      (vstr "X") (by decide) (by decide)
      (by
        intro v hv
        simp only [List.mem_singleton, Prod.mk.injEq] at hv
        rw [hv.2]
        rfl),
   mergeInfo_fill_once.2.1 [("sponsor", vstr "")] "sponsor" (vstr "") "Y"
      (by decide) (by decide) (by decide),
   mergeInfo_fill_once.2.2.1 [("sample_size", vnum 0)] "sample_size" (vnum 0) 7
      (by decide) (by decide) (by decide),
   mergeInfo_fill_once.2.2.2.1 [("sponsor", vstr "")] "sponsor" "Y" (by decide),
   mergeInfo_fill_once.2.2.2.2 [("sample_size", vnum 0)] "sample_size" 7 (by decide)⟩

/-- A concrete study-arm sub-record as the oracle would return it. -/
def armA : JVal :=
  vdict [("arm_name", vstr "Arm A"), ("treatment_description", vstr "desc"),
    ("dosing_schedule", vstr "daily")]

/-- C7: for a list-of-sub-record field, _merge_info appends an incoming
sub-record only if no structurally equal entry is already present: the
accumulated list is a prefix of the result (order of earlier appends kept,
first-seen wins), the result holds exactly the entries of the two lists, and a
value occurring at most once in the accumulated list still occurs at most once
afterwards, so merging the same arm twice yields a single entry. -/
theorem mergeInfo_subrecord_append (base : RecordJ) (k : String) (bl : List JVal)
    (d : JVal) (rest : List JVal) (hd : isDict d = true)
    (hb : lookupKey k base = some (vlist bl)) :
    lookupKey k (mergeInfo base [(k, vlist (d :: rest))])
      = some (vlist (mergeDictList bl (d :: rest))) ∧
    bl <+: mergeDictList bl (d :: rest) ∧
    (∀ x, x ∈ mergeDictList bl (d :: rest) ↔ x ∈ bl ∨ x ∈ d :: rest) ∧
    (∀ x, List.count x bl ≤ 1 → List.count x (mergeDictList bl (d :: rest)) ≤ 1) := by
  refine ⟨?_, mergeDictList_prefix _ bl, fun x => mem_mergeDictList _ bl x,
    fun x => count_mergeDictList_le_one _ bl x⟩
  rw [mergeInfo_of_ne_nil (lookupKey_ne_nil hb)]
  simp only [List.foldl_cons, List.foldl_nil]
  rw [lookupKey_mergeStep_self _ hb]
  simp [mergeValue, hd]

theorem mergeInfo_subrecord_append_witness :
    (lookupKey "arms" (mergeInfo [("arms", vlist [])] [("arms", vlist [armA, armA])])
      = some (vlist (mergeDictList [] [armA, armA]))) ∧
    mergeDictList [] [armA, armA] = [armA] :=
  ⟨(mergeInfo_subrecord_append [("arms", vlist [])] "arms" [] armA [armA]
      (by decide) (by decide)).1,
   by decide⟩

/-- C8: for a list-of-scalar field, _merge_info produces a list whose elements
are exactly the union of the accumulated and incoming elements, with
exact-value duplicates removed (the result has no duplicates); element order
after the set round-trip is not part of the property. -/
theorem mergeInfo_scalar_list_union (base : RecordJ) (k : String) (bl : List JVal)
    (x0 : JVal) (rest : List JVal) (hx0 : isDict x0 = false)
    (hb : lookupKey k base = some (vlist bl)) :
    lookupKey k (mergeInfo base [(k, vlist (x0 :: rest))])
      = some (vlist ((bl ++ x0 :: rest).dedup)) ∧
    (∀ x, x ∈ (bl ++ x0 :: rest).dedup ↔ x ∈ bl ∨ x ∈ x0 :: rest) ∧
    ((bl ++ x0 :: rest).dedup).Nodup := by
  refine ⟨?_, ?_, List.nodup_dedup _⟩
  · rw [mergeInfo_of_ne_nil (lookupKey_ne_nil hb)]
    simp only [List.foldl_cons, List.foldl_nil]
    rw [lookupKey_mergeStep_self _ hb]
    simp only [mergeValue]
    rw [if_neg (by simpa using hx0)]
  · intro x
    rw [List.mem_dedup, List.mem_append]

theorem mergeInfo_scalar_list_union_witness :
    (lookupKey "efficacy_assessments"
        (mergeInfo [("efficacy_assessments", vlist [vstr "A", vstr "B"])]
          [("efficacy_assessments", vlist [vstr "B", vstr "C"])])
      = some (vlist (([vstr "A", vstr "B"] ++ [vstr "B", vstr "C"] : List JVal).dedup))) ∧
    ([vstr "A", vstr "B"] ++ [vstr "B", vstr "C"] : List JVal).dedup
      = [vstr "A", vstr "B", vstr "C"] :=
  ⟨(mergeInfo_scalar_list_union [("efficacy_assessments", vlist [vstr "A", vstr "B"])]
      "efficacy_assessments" [vstr "A", vstr "B"] (vstr "B") [vstr "C"]
      (by decide) (by decide)).1,
   by decide⟩

/-- C5: for every successfully decoded oracle object with unique keys (as
json.loads guarantees), a declared list-kind field holding a non-list value is
coerced by _process_chunk: a truthy value becomes the one-element list holding
it, a falsy or null value becomes the empty list; no error is raised (the
function is total) and no empty-string placeholder survives at the field. -/
theorem processChunk_coerces_list_fields (parsed : RecordJ) (k : String) (v : JVal)
    (hnd : (parsed.map Prod.fst).Nodup) (hmem : (k, v) ∈ parsed)
    (hal : k ∈ arrayFields) (hnl : isList v = false) :
    lookupKey k (processChunk parsed)
      = some (if truthy v then vlist [v] else vlist []) := by
  obtain ⟨l1, l2, rfl⟩ := List.append_of_mem hmem
  have hk2 : ∀ kv ∈ l2, kv.1 ≠ k := by
    have h1 : (k :: l2.map Prod.fst).Nodup := by
      rw [List.map_append, List.map_cons] at hnd
      exact hnd.sublist (List.sublist_append_right _ _)
    intro kv hkv hke
    exact (List.nodup_cons.mp h1).1 (hke ▸ List.mem_map_of_mem Prod.fst hkv)
  unfold processChunk
  rw [List.foldl_append, List.foldl_cons]
  rw [foldl_coerceStep_ne l2 _ k hk2]
  unfold coerceStep
  rw [lookupKey_setKey_self]
  unfold coerceField
  rw [if_pos ⟨hal, hnl⟩]

theorem processChunk_coerces_list_fields_witness :
    lookupKey "arms" (processChunk [("arms", vstr "Arm A only")])
      = some (vlist [vstr "Arm A only"]) := by
  have h := processChunk_coerces_list_fields [("arms", vstr "Arm A only")] "arms"
    (vstr "Arm A only") (by decide) (by decide) (by decide) (by decide)
  simpa using h

/-- C9: when the oracle response decodes to the empty object, _process_chunk
returns exactly the schema-complete default record: its keys are precisely the
39 fields of the pydantic schema, without duplicates, and each field holds its
type-correct default (empty string for string-typed and optional-string-typed
fields and the string-or-number unions, zero for sample_size, the empty list
for list fields). -/
theorem processChunk_empty_defaults :
    processChunk [] = defaultRecord ∧
    defaultRecord.map Prod.fst = schemaFields.map Prod.fst ∧
    (schemaFields.all fun kf =>
      decide (lookupKey kf.1 (processChunk []) = some (kindDefault kf.2))) = true ∧
    (defaultRecord.map Prod.fst).Nodup := by
  exact ⟨rfl, by decide, by decide, by decide⟩

theorem generateSynopsisAux_fatal (responses : List (Option RecordJ)) :
    ∀ acc, none ∈ responses →
      generateSynopsisAux acc responses = Except.error "Failed to parse JSON response" := by
  induction responses with
  | nil =>
    intro acc h
    cases h
  | cons r rest ih =>
    intro acc h
    cases r with
    | none => cases acc <;> simp [generateSynopsisAux, processChunkR]
    | some parsed =>
      have h2 : none ∈ rest := by
        rcases List.mem_cons.mp h with h1 | h1
        · cases h1
        · exact h1
      cases acc with
      | none => simpa [generateSynopsisAux, processChunkR] using ih _ h2
      | some a => simpa [generateSynopsisAux, processChunkR] using ih _ h2

/-- C4: if any oracle response fails to decode as JSON, the whole pipeline run
aborts with the decode error and no record is produced: generate_synopsis
returns the error raised at the failing chunk (json.JSONDecodeError re-raised
through _process_chunk and generate_synopsis), not a partial record. -/
theorem generateSynopsis_fatal_on_decode_failure (responses : List (Option RecordJ))
    (h : none ∈ responses) :
    generateSynopsis responses = Except.error "Failed to parse JSON response" :=
  generateSynopsisAux_fatal responses none h

theorem generateSynopsis_fatal_on_decode_failure_witness :
    generateSynopsis [some [], none] = Except.error "Failed to parse JSON response" :=
  generateSynopsis_fatal_on_decode_failure [some [], none] (by simp)

/-- C6 (code bug): called with a falsy (empty) accumulated dict, _merge_info
rebinds its local name base to a freshly built default dict (lines 314-357)
and mutates that fresh dict, so the dict the caller passed in stays empty: as
observed by the caller nothing at all is merged, which differs from the
seeded-then-merged record the function computes locally and then discards.
The first conjunct is the caller-observed result, the rest evaluate the
record the seeding intended the caller to receive. -/
theorem mergeInfo_empty_base_bug :
    mergeInfo [] [("protocol_title", vstr "T")] = [] ∧
    lookupKey "protocol_title" (mergeLocal [] [("protocol_title", vstr "T")])
      = some (vstr "T") ∧
    mergeLocal [] [("protocol_title", vstr "T")]
      = mergeInfo defaultRecord [("protocol_title", vstr "T")] ∧
    mergeInfo defaultRecord [("protocol_title", vstr "T")] ≠ [] := by
  exact ⟨by decide, by decide, by decide, by decide⟩
